import Mathlib

/-!
# URL normalisation and counting (`main.go`)

A shallow embedding of `CountUniqueUrls`, `getSchemeAndDomain`, `removeSuffix`
and `CountUniqueUrlsPerTopLevelDomain`, together with the parts of Go's
`strings` and `fmt` packages they call.

Modelling conventions.

* A Go `string` is a `List Char`.  Every separator the program searches for
  (`"://"`, `"/"`, `"#"`, `"?"`, `"."`, `".com"`) is ASCII, so searching by
  character and searching by byte agree.
* A run-time panic (index or slice out of range) is `none` in the `Option`
  monad; every source operation that can panic is written with a fallible
  primitive (`sliceStr`, `indexAt`).
* A Go `map[string]V` is an association list with pairwise distinct keys;
  `len` is its length, a lookup is `GoMap.get`, an assignment is `GoMap.set`.
* Go's `int` counters are natural numbers: a counter never exceeds
  `len(urls)`, which is itself an `int`, so no wrap-around can occur.
-/

namespace UrlParser

/-- A Go string. -/
abbrev Str := List Char

/-! ## Go library functions used by the program -/

/-- Go `strings.HasPrefix(s, prefix)`. -/
def HasPrefix (s pre : Str) : Bool := pre.isPrefixOf s

/-- Go `strings.Index(s, substr)`: the index of the first instance of `substr`
in `s`, or `-1` when there is none. -/
def Index : Str → Str → Int
  | [], substr => if HasPrefix [] substr then 0 else -1
  | c :: t, substr =>
    if HasPrefix (c :: t) substr then 0
    else if Index t substr < 0 then -1 else Index t substr + 1

/-- Go `strings.Contains(s, substr)`, which is `Index(s, substr) >= 0`. -/
def Contains (s substr : Str) : Bool := decide (0 ≤ Index s substr)

/-- Go `strings.TrimPrefix(s, prefix)`. -/
def TrimPrefix (s pre : Str) : Str :=
  if HasPrefix s pre then s.drop pre.length else s

/-- The loop of Go's `genSplit`: at most `n` cuts, each at the first instance
of `sep` in what is left of the string. -/
def splitLoop (sep : Str) : Nat → Str → List Str
  | 0, s => [s]
  | n + 1, s =>
    if Index s sep < 0 then [s]
    else s.take (Index s sep).toNat ::
      splitLoop sep n (s.drop ((Index s sep).toNat + sep.length))

/-- Go `strings.Split(s, sep)`.  With an empty separator the string is
exploded into its characters; otherwise `genSplit` runs its loop, which Go
bounds by `len(s)` cuts. -/
def Split (s sep : Str) : List Str :=
  if sep = [] then s.map (fun c => [c]) else splitLoop sep s.length s

/-- Go `fmt.Sprintf("%s://%s", a, b)`. -/
def sprintfSchemeDomain (a b : Str) : Str := a ++ "://".toList ++ b

/-- Go slice expression `s[lo:hi]` on a string; panics unless
`0 ≤ lo ≤ hi ≤ len(s)`. -/
def sliceStr (s : Str) (lo hi : Int) : Option Str :=
  if 0 ≤ lo ∧ lo ≤ hi ∧ hi ≤ (s.length : Int) then
    some ((s.drop lo.toNat).take (hi.toNat - lo.toNat))
  else none

/-- Go index expression `xs[i]` on a slice; panics unless `0 ≤ i < len(xs)`. -/
def indexAt {α : Type} (xs : List α) (i : Int) : Option α :=
  if 0 ≤ i then xs[i.toNat]? else none

/-! ## Go maps -/

/-- A Go `map[string]V`. -/
abbrev GoMap (V : Type) := List (Str × V)

/-- Map lookup `m[k]` in its two-valued form `v, present := m[k]`. -/
def GoMap.get {V : Type} : GoMap V → Str → Option V
  | [], _ => none
  | (k', v) :: m, k => if k' = k then some v else GoMap.get m k

/-- Map assignment `m[k] = v`. -/
def GoMap.set {V : Type} : GoMap V → Str → V → GoMap V
  | [], k, v => [(k, v)]
  | (k', v') :: m, k, v =>
    if k' = k then (k', v) :: m else (k', v') :: GoMap.set m k v

/-- Builtin `len(m)` on a map. -/
def GoMap.len {V : Type} (m : GoMap V) : Nat := m.length

/-! ## The program -/

/-- Source `removeSuffix` (lines 77-86). -/
def removeSuffix (url suffix : Str) : Option Str :=
  if Contains url suffix then do
    let index := Index url suffix
    let suffixRemoved ← sliceStr url 0 index
    pure suffixRemoved
  else
    pure url

/-- Source `getSchemeAndDomain` (lines 56-75). -/
def getSchemeAndDomain (url : Str) : Option (Str × Str) := do
  let segments := Split url "://".toList
  let scheme ← indexAt segments 0
  let schemeRemoved := TrimPrefix url (scheme ++ "://".toList)
  let domain := schemeRemoved
  let domain ← (if Contains domain "/".toList then removeSuffix domain "/".toList else pure domain)
  let domain ← (if Contains domain "#".toList then removeSuffix domain "#".toList else pure domain)
  let domain ← (if Contains domain "?".toList then removeSuffix domain "?".toList else pure domain)
  pure (scheme, domain)

/-- Source `CountUniqueUrls` (lines 42-54). -/
def CountUniqueUrls (urls : List Str) : Option Nat := do
  let uniqueUrlMap : GoMap Bool := []
  let uniqueUrlMap ← urls.foldlM (fun (uniqueUrlMap : GoMap Bool) url => do
    let (scheme, domain) ← getSchemeAndDomain url
    let schemeAndDomain := sprintfSchemeDomain scheme domain
    if (GoMap.get uniqueUrlMap schemeAndDomain).isNone then
      pure (GoMap.set uniqueUrlMap schemeAndDomain true)
    else
      pure uniqueUrlMap) uniqueUrlMap
  pure (GoMap.len uniqueUrlMap)

/-- Source `CountUniqueUrlsPerTopLevelDomain` (lines 106-123). -/
def CountUniqueUrlsPerTopLevelDomain (urls : List Str) : Option (GoMap Nat) := do
  let uniqueUrlMap : GoMap Nat := []
  urls.foldlM (fun (uniqueUrlMap : GoMap Nat) url => do
    let (_, domain) ← getSchemeAndDomain url
    let suffixRemoved ← removeSuffix domain ".com".toList
    let segments := Split suffixRemoved ".".toList
    let last ← indexAt segments ((segments.length : Int) - 1)
    let topLevelDomain := last ++ ".com".toList
    let uniqueUrlMap :=
      if (GoMap.get uniqueUrlMap topLevelDomain).isNone then
        GoMap.set uniqueUrlMap topLevelDomain 0
      else uniqueUrlMap
    let uniqueUrlMap :=
      GoMap.set uniqueUrlMap topLevelDomain ((GoMap.get uniqueUrlMap topLevelDomain).getD 0 + 1)
    pure uniqueUrlMap) uniqueUrlMap

/-! ## Closed forms used in the proofs -/

/-- The text of `s` in front of the first instance of `sub`, or all of `s`
when there is none: what `removeSuffix` computes. -/
def cutFirst (s sub : Str) : Str :=
  if Index s sub < 0 then s else s.take (Index s sub).toNat

/-- Characters that may stand in a host: anything but `/`, `#` and `?`. -/
def isHostChar (c : Char) : Bool := c != '/' && c != '#' && c != '?'

/-- The scheme `getSchemeAndDomain` returns. -/
def schemeOf (url : Str) : Str := cutFirst url "://".toList

/-- The text after the first `"://"`, or the whole string when there is none. -/
def restOf (url : Str) : Str :=
  if Index url "://".toList < 0 then url
  else url.drop ((Index url "://".toList).toNat + 3)

/-- The host `getSchemeAndDomain` returns. -/
def hostOf (url : Str) : Str := (restOf url).takeWhile isHostChar

/-- The uniqueness key of `CountUniqueUrls` for one URL. -/
def keyOf (url : Str) : Str := sprintfSchemeDomain (schemeOf url) (hostOf url)

/-- The text after the last `c` in `s`, or all of `s` when there is none. -/
def afterLast (c : Char) (s : Str) : Str := (s.reverse.takeWhile (· != c)).reverse

/-- The key of `CountUniqueUrlsPerTopLevelDomain` for one URL. -/
def tldOf (url : Str) : Str :=
  afterLast '.' (cutFirst (hostOf url) ".com".toList) ++ ".com".toList

/-- The loop body of `CountUniqueUrls` once the key of the URL is known
(lines 48-50). -/
def addKey (m : GoMap Bool) (k : Str) : GoMap Bool :=
  if (GoMap.get m k).isNone then GoMap.set m k true else m

/-- The loop body of `CountUniqueUrlsPerTopLevelDomain` once the key of the
URL is known (lines 116-119). -/
def bumpKey (m : GoMap Nat) (k : Str) : GoMap Nat :=
  GoMap.set (if (GoMap.get m k).isNone then GoMap.set m k 0 else m) k
    ((GoMap.get (if (GoMap.get m k).isNone then GoMap.set m k 0 else m) k).getD 0 + 1)

/-- The key under which `CountUniqueUrlsPerTopLevelDomain` counts one URL
(lines 110-114 of the loop body). -/
def topLevelDomainKey (url : Str) : Option Str := do
  let (_, domain) ← getSchemeAndDomain url
  let suffixRemoved ← removeSuffix domain ".com".toList
  let segments := Split suffixRemoved ".".toList
  let last ← indexAt segments ((segments.length : Int) - 1)
  let topLevelDomain := last ++ ".com".toList
  pure topLevelDomain

/-- The derivation of the specification, section 4.3: strip a trailing
`".com"` from the host if present, split what remains on `"."`, take the last
label, append `".com"`. -/
def specTopLevelDomain (host : Str) : Option Str :=
  let stripped :=
    if ".com".toList.isSuffixOf host then host.take (host.length - ".com".toList.length)
    else host
  let labels := Split stripped ".".toList
  labels.getLast?.map (fun label => label ++ ".com".toList)

/-- One of the three truncation steps of `getSchemeAndDomain` (lines 64-72),
for the delimiter `delim`. -/
def truncateAt (domain : Str) (delim : Char) : Option Str :=
  if Contains domain [delim] then removeSuffix domain [delim] else pure domain

/-- The truncation steps of `getSchemeAndDomain` run in the order `order`
instead of the source's `/`, `#`, `?`. -/
def truncateInOrder (order : List Char) (rest : Str) : Option Str :=
  order.foldlM truncateAt rest

/-! ## Facts about the library model -/

theorem HasPrefix_iff (s p : Str) : HasPrefix s p = true ↔ p <+: s := by
  unfold HasPrefix; exact List.isPrefixOf_iff_prefix

theorem Index_nil (sub : Str) : Index [] sub = if HasPrefix [] sub then 0 else -1 := by
  cases sub <;> rfl

theorem Index_cons (c : Char) (t sub : Str) :
    Index (c :: t) sub =
      if HasPrefix (c :: t) sub then 0
      else if Index t sub < 0 then -1 else Index t sub + 1 := by
  cases sub <;> rfl

theorem Index_ge (s sub : Str) : -1 ≤ Index s sub := by
  induction s with
  | nil => rw [Index_nil]; split <;> omega
  | cons c t ih => rw [Index_cons]; split_ifs <;> omega

/-- A non-negative `Index` is the length of the shortest text in front of an
instance of `sub`. -/
theorem Index_nonneg_spec (s sub : Str) (h : 0 ≤ Index s sub) :
    ∃ a b, s = a ++ sub ++ b ∧ Index s sub = (a.length : Int) ∧
      ∀ a' b', s = a' ++ sub ++ b' → a.length ≤ a'.length := by
  induction s with
  | nil =>
    rw [Index_nil] at h ⊢
    split_ifs at h ⊢ with hp
    · obtain ⟨r, hr⟩ := (HasPrefix_iff _ _).1 hp
      exact ⟨[], r, by simpa using hr.symm, by simp, by simp⟩
    · omega
  | cons c t ih =>
    rw [Index_cons] at h ⊢
    split_ifs at h ⊢ with hp hn
    · obtain ⟨r, hr⟩ := (HasPrefix_iff _ _).1 hp
      exact ⟨[], r, by simpa using hr.symm, by simp, by simp⟩
    · omega
    · obtain ⟨a, b, hab, hi, hmin⟩ := ih (by omega)
      refine ⟨c :: a, b, by simp [hab], by simp [hi], ?_⟩
      intro a' b' h'
      cases a' with
      | nil =>
        exact absurd ((HasPrefix_iff _ _).2 ⟨b', by simpa using h'.symm⟩) hp
      | cons x a'' =>
        simp only [List.cons_append, List.cons.injEq] at h'
        have := hmin a'' b' (by simpa using h'.2)
        simp; omega

/-- A negative `Index` means there is no instance of `sub` at all. -/
theorem Index_neg_spec (s sub : Str) (h : Index s sub < 0) :
    ¬ ∃ a b, s = a ++ sub ++ b := by
  induction s with
  | nil =>
    rw [Index_nil] at h
    split_ifs at h with hp
    · omega
    · rintro ⟨a, b, hab⟩
      apply hp
      rw [HasPrefix_iff]
      have : a = [] ∧ sub = [] ∧ b = [] := by simpa [eq_comm] using hab
      simp [this.2.1]
  | cons c t ih =>
    rw [Index_cons] at h
    split_ifs at h with hp hn
    · omega
    · rintro ⟨a, b, hab⟩
      cases a with
      | nil => exact hp ((HasPrefix_iff _ _).2 ⟨b, by simpa using hab.symm⟩)
      | cons x a' =>
        simp only [List.cons_append, List.cons.injEq] at hab
        exact ih hn ⟨a', b, by simpa using hab.2⟩
    · have := Index_ge t sub; omega

/-- The first instance decides `Index`. -/
theorem Index_eq_of_first (a sub b : Str)
    (hmin : ∀ a' b', a ++ sub ++ b = a' ++ sub ++ b' → a.length ≤ a'.length) :
    Index (a ++ sub ++ b) sub = (a.length : Int) := by
  by_cases h : 0 ≤ Index (a ++ sub ++ b) sub
  · obtain ⟨a0, b0, hab, hi, hmin0⟩ := Index_nonneg_spec _ _ h
    have h1 := hmin a0 b0 hab
    have h2 := hmin0 a b rfl
    rw [hi]; congr 1; omega
  · exact absurd ⟨a, b, rfl⟩ (Index_neg_spec (a ++ sub ++ b) sub (by omega))

theorem Contains_iff (s sub : Str) : Contains s sub = true ↔ ∃ a b, s = a ++ sub ++ b := by
  unfold Contains
  rw [decide_eq_true_iff]
  constructor
  · intro h
    obtain ⟨a, b, hab, _, _⟩ := Index_nonneg_spec s sub h
    exact ⟨a, b, hab⟩
  · intro h
    by_contra hn
    exact Index_neg_spec s sub (by omega) h

theorem sliceStr_zero (s : Str) (n : Nat) (h : n ≤ s.length) :
    sliceStr s 0 (n : Int) = some (s.take n) := by
  unfold sliceStr
  rw [if_pos ⟨le_refl _, by omega, by omega⟩]
  simp

theorem indexAt_zero {α : Type} (x : α) (xs : List α) : indexAt (x :: xs) 0 = some x := by
  simp [indexAt]

theorem Index_le_length (s sub : Str) : Index s sub ≤ (s.length : Int) := by
  by_cases h : 0 ≤ Index s sub
  · obtain ⟨a, b, hab, hi, _⟩ := Index_nonneg_spec s sub h
    rw [hi]
    have := congrArg List.length hab
    simp at this
    omega
  · omega

theorem removeSuffix_eq (s sub : Str) : removeSuffix s sub = some (cutFirst s sub) := by
  unfold removeSuffix cutFirst Contains
  by_cases h : 0 ≤ Index s sub
  · have hle := Index_le_length s sub
    obtain ⟨n, hn⟩ := Int.eq_ofNat_of_zero_le h
    rw [hn] at hle
    have hlt : ¬ ((n : Int) < 0) := by omega
    simp only [hn, Int.toNat_ofNat, hlt, if_false]
    rw [sliceStr_zero s n (by omega)]
    simp
  · have : Index s sub < 0 := by omega
    simp [h, this]

theorem cutFirst_cons_singleton (x : Char) (t : Str) (c : Char) :
    cutFirst (x :: t) [c] = if c = x then [] else x :: cutFirst t [c] := by
  unfold cutFirst
  rw [Index_cons]
  have hp : HasPrefix (x :: t) [c] = (c == x) := by
    simp [HasPrefix, List.isPrefixOf]
  rw [hp]
  by_cases hx : c = x
  · simp [hx]
  · have hx' : (c == x) = false := by simpa using hx
    rw [if_neg hx, hx']
    by_cases hn : Index t [c] < 0
    · simp [hn]
    · obtain ⟨n, hn'⟩ := Int.eq_ofNat_of_zero_le (show 0 ≤ Index t [c] by omega)
      rw [hn']
      have h0 : ¬ ((n : Int) < 0) := by omega
      have h1 : ¬ ((n : Int) + 1 < 0) := by omega
      have h2 : ((n : Int) + 1).toNat = n + 1 := by omega
      simp [h0, h1, h2]

theorem cutFirst_singleton (s : Str) (c : Char) :
    cutFirst s [c] = s.takeWhile (· != c) := by
  induction s with
  | nil => simp [cutFirst]
  | cons x t ih =>
    rw [cutFirst_cons_singleton, List.takeWhile_cons, ih]
    by_cases hx : c = x
    · subst hx; simp
    · have hx' : (x != c) = true := bne_iff_ne.2 (fun h => hx h.symm)
      rw [if_neg hx, if_pos hx']

theorem cut_step (d : Str) (c : Char) :
    (if Contains d [c] then removeSuffix d [c] else pure d) =
      some (d.takeWhile (· != c)) := by
  rw [← cutFirst_singleton]
  split_ifs with h
  · exact removeSuffix_eq d [c]
  · have : Index d [c] < 0 := by
      unfold Contains at h
      simpa using h
    simp [cutFirst, this]

theorem takeWhile_cuts (r : Str) :
    ((r.takeWhile (· != '/')).takeWhile (· != '#')).takeWhile (· != '?') =
      r.takeWhile isHostChar := by
  induction r with
  | nil => rfl
  | cons x t ih =>
    by_cases h1 : x = '/'
    · subst h1; simp [isHostChar]
    · by_cases h2 : x = '#'
      · subst h2; simp [isHostChar]
      · by_cases h3 : x = '?'
        · subst h3; simp [isHostChar]
        · simp [isHostChar, h1, h2, h3, ih]

theorem Index_nil_of_ne (sep : Str) (hsep : sep ≠ []) : Index [] sep < 0 := by
  rw [Index_nil]
  cases sep with
  | nil => exact absurd rfl hsep
  | cons a t => simp [HasPrefix, List.isPrefixOf]

theorem Split_head (url sep : Str) (hsep : sep ≠ []) :
    indexAt (Split url sep) 0 = some (cutFirst url sep) := by
  unfold Split cutFirst
  rw [if_neg hsep]
  cases url with
  | nil =>
    simp [splitLoop, Index_nil_of_ne sep hsep, indexAt_zero]
  | cons c t =>
    simp only [List.length_cons, splitLoop]
    split_ifs <;> exact indexAt_zero _ _

theorem TrimPrefix_scheme (url : Str) :
    TrimPrefix url (schemeOf url ++ "://".toList) = restOf url := by
  unfold TrimPrefix schemeOf restOf cutFirst
  by_cases h : Index url "://".toList < 0
  · rw [if_pos h, if_pos h]
    have : ¬ HasPrefix url (url ++ "://".toList) = true := by
      rw [HasPrefix_iff]
      intro hp
      have := hp.length_le
      simp at this
    rw [if_neg this]
  · rw [if_neg h, if_neg h]
    obtain ⟨a, b, hab, hi, _⟩ := Index_nonneg_spec url _ (show 0 ≤ Index url "://".toList by omega)
    rw [hi, Int.toNat_ofNat]
    have ht : List.take a.length url = a := by rw [hab]; simp
    rw [ht]
    have hp : HasPrefix url (a ++ "://".toList) = true := by
      rw [HasPrefix_iff]
      exact ⟨b, hab.symm⟩
    rw [if_pos hp]
    simp

theorem getSchemeAndDomain_eq (url : Str) :
    getSchemeAndDomain url = some (schemeOf url, hostOf url) := by
  unfold getSchemeAndDomain
  have hs : indexAt (Split url "://".toList) 0 = some (schemeOf url) :=
    Split_head url _ (by decide)
  have e1 : "/".toList = ['/'] := rfl
  have e2 : "#".toList = ['#'] := rfl
  have e3 : "?".toList = ['?'] := rfl
  simp only [hs, Option.bind_eq_bind, Option.some_bind, TrimPrefix_scheme, e1, e2, e3, cut_step,
    takeWhile_cuts]
  rfl

/-- The bound of `splitLoop` is never what stops it: with a non-empty
separator every bound of at least `len(s)` gives the same segments. -/
theorem splitLoop_fuel (sep : Str) (hsep : sep ≠ []) :
    ∀ (n m : Nat) (s : Str), s.length ≤ n → s.length ≤ m →
      splitLoop sep n s = splitLoop sep m s := by
  have hnil : ∀ k, splitLoop sep k [] = [[]] := by
    intro k
    cases k with
    | zero => rfl
    | succ k => unfold splitLoop; rw [if_pos (Index_nil_of_ne sep hsep)]
  have hpos : 0 < sep.length := List.length_pos.2 hsep
  intro n
  induction n with
  | zero =>
    intro m s hn _
    have : s = [] := List.length_eq_zero.1 (by omega)
    subst this
    rw [hnil, hnil]
  | succ n ih =>
    intro m s hn hm
    cases m with
    | zero =>
      have : s = [] := List.length_eq_zero.1 (by omega)
      subst this
      rw [hnil, hnil]
    | succ m =>
      unfold splitLoop
      by_cases h : Index s sep < 0
      · rw [if_pos h, if_pos h]
      · rw [if_neg h, if_neg h]
        have hd : (s.drop ((Index s sep).toNat + sep.length)).length ≤ s.length - 1 := by
          rw [List.length_drop]; omega
        rw [ih m _ (by omega) (by omega)]

/-! ### The last segment of `Split` -/

theorem takeWhile_append_cons_neg {p : Char → Bool} (xs ys : Str) (c : Char) (h : p c = false) :
    (xs ++ c :: ys).takeWhile p = xs.takeWhile p := by
  induction xs with
  | nil => simp [h]
  | cons x t ih =>
    by_cases hx : p x = true
    · simp [List.takeWhile_cons, hx, ih]
    · simp [List.takeWhile_cons, hx]

theorem not_mem_of_Index_neg (s : Str) (c : Char) (h : Index s [c] < 0) : c ∉ s := by
  intro hc
  obtain ⟨a, b, hab⟩ := List.append_of_mem hc
  exact Index_neg_spec s [c] h ⟨a, b, by simp [hab]⟩

theorem afterLast_of_not_mem (s : Str) (c : Char) (h : c ∉ s) : afterLast c s = s := by
  unfold afterLast
  have : s.reverse.takeWhile (· != c) = s.reverse := by
    rw [List.takeWhile_eq_self_iff]
    intro x hx
    have hx' : x ∈ s := List.mem_reverse.1 hx
    exact bne_iff_ne.2 (fun e => h (e ▸ hx'))
  rw [this, List.reverse_reverse]

theorem afterLast_append (a b : Str) (c : Char) :
    afterLast c (a ++ [c] ++ b) = afterLast c b := by
  unfold afterLast
  have : (a ++ [c] ++ b).reverse = b.reverse ++ c :: a.reverse := by simp
  rw [this, takeWhile_append_cons_neg _ _ _ (by simp)]

theorem splitLoop_ne_nil (sep : Str) (n : Nat) (s : Str) : splitLoop sep n s ≠ [] := by
  cases n with
  | zero => simp [splitLoop]
  | succ n => unfold splitLoop; split_ifs <;> simp

theorem splitLoop_getLast (c : Char) :
    ∀ (n : Nat) (s : Str), s.length ≤ n →
      (splitLoop [c] n s).getLast? = some (afterLast c s) := by
  intro n
  induction n with
  | zero =>
    intro s hs
    have : s = [] := List.length_eq_zero.1 (by omega)
    subst this
    simp [splitLoop, afterLast]
  | succ n ih =>
    intro s hs
    unfold splitLoop
    by_cases h : Index s [c] < 0
    · rw [if_pos h, afterLast_of_not_mem s c (not_mem_of_Index_neg s c h)]
      rfl
    · rw [if_neg h]
      obtain ⟨a, b, hab, hi, _⟩ := Index_nonneg_spec s [c] (by omega)
      rw [hi, Int.toNat_ofNat]
      have hd : List.drop (a.length + [c].length) s = b := by
        rw [hab]; simp
      have hl : b.length ≤ n := by
        have := congrArg List.length hab
        simp at this
        omega
      rw [hd, List.getLast?_cons, ih b hl, hab, afterLast_append]
      rfl

theorem indexAt_last {α : Type} (xs : List α) (h : xs ≠ []) :
    indexAt xs ((xs.length : Int) - 1) = xs.getLast? := by
  have hpos : 0 < xs.length := List.length_pos.2 h
  unfold indexAt
  rw [if_pos (by omega), List.getLast?_eq_getElem?]
  congr 1
  omega

theorem Split_last (s : Str) (c : Char) :
    indexAt (Split s [c]) (((Split s [c]).length : Int) - 1) = some (afterLast c s) := by
  have hne : Split s [c] ≠ [] := by
    unfold Split; rw [if_neg (by simp)]; exact splitLoop_ne_nil _ _ _
  rw [indexAt_last _ hne]
  unfold Split
  rw [if_neg (by simp)]
  exact splitLoop_getLast c s.length s (le_refl _)

/-! ### Go maps -/

theorem GoMap.get_cons {V : Type} (k' : Str) (v : V) (m : GoMap V) (k : Str) :
    GoMap.get ((k', v) :: m) k = if k' = k then some v else GoMap.get m k := rfl

theorem GoMap.set_cons {V : Type} (k' : Str) (v' : V) (m : GoMap V) (k : Str) (v : V) :
    GoMap.set ((k', v') :: m) k v =
      if k' = k then (k', v) :: m else (k', v') :: GoMap.set m k v := rfl

theorem GoMap.get_eq_none_iff {V : Type} (m : GoMap V) (k : Str) :
    GoMap.get m k = none ↔ k ∉ m.map Prod.fst := by
  induction m with
  | nil => simp [GoMap.get]
  | cons p m ih =>
    obtain ⟨k', v⟩ := p
    rw [GoMap.get_cons, List.map_cons, List.mem_cons, not_or]
    by_cases h : k' = k
    · rw [if_pos h]
      constructor
      · intro h'; cases h'
      · intro h'; exact absurd h.symm h'.1
    · rw [if_neg h, ih]
      exact ⟨fun h' => ⟨Ne.symm h, h'⟩, fun h' => h'.2⟩

theorem GoMap.keys_set_new {V : Type} (m : GoMap V) (k : Str) (v : V)
    (h : k ∉ m.map Prod.fst) :
    (GoMap.set m k v).map Prod.fst = m.map Prod.fst ++ [k] := by
  induction m with
  | nil => simp [GoMap.set]
  | cons p m ih =>
    obtain ⟨k', v'⟩ := p
    simp only [List.map_cons, List.mem_cons, not_or] at h
    rw [GoMap.set_cons, if_neg (Ne.symm h.1)]
    simp only [List.map_cons, List.cons_append, ih h.2]

theorem GoMap.keys_set_old {V : Type} (m : GoMap V) (k : Str) (v : V)
    (h : k ∈ m.map Prod.fst) :
    (GoMap.set m k v).map Prod.fst = m.map Prod.fst := by
  induction m with
  | nil => simp at h
  | cons p m ih =>
    obtain ⟨k', v'⟩ := p
    rw [GoMap.set_cons]
    by_cases hk : k' = k
    · rw [if_pos hk]; rfl
    · rw [if_neg hk]
      simp only [List.map_cons, List.mem_cons] at h
      rcases h with h | h
      · exact absurd h.symm hk
      · simp only [List.map_cons, ih h]

theorem GoMap.get_set {V : Type} (m : GoMap V) (k : Str) (v : V) (k' : Str) :
    GoMap.get (GoMap.set m k v) k' = if k = k' then some v else GoMap.get m k' := by
  induction m with
  | nil => simp [GoMap.set, GoMap.get]
  | cons p m ih =>
    obtain ⟨k0, v0⟩ := p
    rw [GoMap.set_cons]
    by_cases h0 : k0 = k
    · subst h0
      rw [if_pos rfl, GoMap.get_cons, GoMap.get_cons]
      by_cases h1 : k0 = k'
      · rw [if_pos h1, if_pos h1]
      · rw [if_neg h1, if_neg h1, if_neg h1]
    · rw [if_neg h0, GoMap.get_cons, GoMap.get_cons, ih]
      by_cases h1 : k0 = k'
      · subst h1
        rw [if_pos rfl, if_neg (Ne.symm h0), if_pos rfl]
      · simp only [h1, if_false]

theorem foldlM_some {α β : Type} (f : β → α → β) (l : List α) (init : β) :
    l.foldlM (fun b a => some (f b a)) init = some (l.foldl f init) := by
  induction l generalizing init with
  | nil => rfl
  | cons a l ih => simp [List.foldlM_cons, ih]

/-! ### Closed forms of the two counters -/

theorem CountUniqueUrls_fold (urls : List Str) :
    CountUniqueUrls urls =
      some (GoMap.len (urls.foldl (fun m u => addKey m (keyOf u)) [])) := by
  unfold CountUniqueUrls
  have hstep : (fun (uniqueUrlMap : GoMap Bool) (url : Str) => do
      let (scheme, domain) ← getSchemeAndDomain url
      let schemeAndDomain := sprintfSchemeDomain scheme domain
      if (GoMap.get uniqueUrlMap schemeAndDomain).isNone then
        pure (GoMap.set uniqueUrlMap schemeAndDomain true)
      else
        pure uniqueUrlMap) = fun m u => some (addKey m (keyOf u)) := by
    funext m u
    simp only [getSchemeAndDomain_eq, Option.bind_eq_bind, Option.some_bind, addKey, keyOf]
    split_ifs <;> rfl
  simp only [hstep, foldlM_some]
  rfl

theorem addKey_keys (m : GoMap Bool) (k : Str) :
    (addKey m k).map Prod.fst = if k ∈ m.map Prod.fst then m.map Prod.fst else m.map Prod.fst ++ [k] := by
  unfold addKey
  by_cases h : k ∈ m.map Prod.fst
  · have : ¬ (GoMap.get m k).isNone = true := by
      rw [Option.isNone_iff_eq_none, GoMap.get_eq_none_iff]
      exact not_not.2 h
    rw [if_neg this, if_pos h]
  · have : (GoMap.get m k).isNone = true := by
      rw [Option.isNone_iff_eq_none, GoMap.get_eq_none_iff]
      exact h
    rw [if_pos this, if_neg h, GoMap.keys_set_new m k true h]

theorem addKey_fold (keys : List Str) :
    ∀ m : GoMap Bool, (m.map Prod.fst).Nodup →
      ((keys.foldl addKey m).map Prod.fst).Nodup ∧
      ((keys.foldl addKey m).map Prod.fst).toFinset = (m.map Prod.fst).toFinset ∪ keys.toFinset := by
  induction keys with
  | nil => intro m hm; simp [hm]
  | cons k ks ih =>
    intro m hm
    have hk := addKey_keys m k
    have hnd : ((addKey m k).map Prod.fst).Nodup := by
      rw [hk]
      split_ifs with h
      · exact hm
      · exact List.Nodup.append hm (List.nodup_singleton k) (by simpa using h)
    obtain ⟨h1, h2⟩ := ih (addKey m k) hnd
    refine ⟨h1, ?_⟩
    rw [List.foldl_cons, h2, hk]
    ext x
    split_ifs with h
    · simp only [Finset.mem_union, List.mem_toFinset, List.mem_cons]
      constructor
      · rintro (h' | h')
        · exact Or.inl h'
        · exact Or.inr (Or.inr h')
      · rintro (h' | h' | h')
        · exact Or.inl h'
        · exact Or.inl (h' ▸ h)
        · exact Or.inr h'
    · simp only [Finset.mem_union, List.mem_toFinset, List.mem_cons, List.mem_append,
        List.mem_singleton]
      tauto

theorem CountUniqueUrls_eq (urls : List Str) :
    CountUniqueUrls urls = some ((urls.map keyOf).toFinset.card) := by
  rw [CountUniqueUrls_fold]
  have hf : urls.foldl (fun m u => addKey m (keyOf u)) [] = (urls.map keyOf).foldl addKey [] := by
    rw [List.foldl_map]
  obtain ⟨h1, h2⟩ := addKey_fold (urls.map keyOf) [] (by simp)
  have hlen : GoMap.len ((urls.map keyOf).foldl addKey []) =
      (((urls.map keyOf).foldl addKey []).map Prod.fst).length := (List.length_map _ _).symm
  rw [hf, hlen, ← List.toFinset_card_of_nodup h1, h2]
  simp

theorem CountPerTld_fold (urls : List Str) :
    CountUniqueUrlsPerTopLevelDomain urls =
      some (urls.foldl (fun m u => bumpKey m (tldOf u)) []) := by
  unfold CountUniqueUrlsPerTopLevelDomain
  have hstep : (fun (uniqueUrlMap : GoMap Nat) (url : Str) => do
      let (_, domain) ← getSchemeAndDomain url
      let suffixRemoved ← removeSuffix domain ".com".toList
      let segments := Split suffixRemoved ".".toList
      let last ← indexAt segments ((segments.length : Int) - 1)
      let topLevelDomain := last ++ ".com".toList
      let uniqueUrlMap :=
        if (GoMap.get uniqueUrlMap topLevelDomain).isNone then
          GoMap.set uniqueUrlMap topLevelDomain 0
        else uniqueUrlMap
      let uniqueUrlMap :=
        GoMap.set uniqueUrlMap topLevelDomain ((GoMap.get uniqueUrlMap topLevelDomain).getD 0 + 1)
      pure uniqueUrlMap) = fun m u => some (bumpKey m (tldOf u)) := by
    funext m u
    have e : ".".toList = ['.'] := rfl
    simp only [getSchemeAndDomain_eq, removeSuffix_eq, Option.bind_eq_bind, Option.some_bind, e,
      Split_last, bumpKey, tldOf]
    rfl
  simp only [hstep, foldlM_some]

theorem bumpKey_get (m : GoMap Nat) (k k' : Str) :
    GoMap.get (bumpKey m k) k' =
      if k = k' then some ((GoMap.get m k).getD 0 + 1) else GoMap.get m k' := by
  unfold bumpKey
  rw [GoMap.get_set]
  by_cases h : k = k'
  · rw [if_pos h, if_pos h]
    split_ifs with h0
    · rw [GoMap.get_set, if_pos rfl]
      rw [Option.isNone_iff_eq_none] at h0
      simp [h0]
    · rfl
  · rw [if_neg h, if_neg h]
    split_ifs with h0
    · rw [GoMap.get_set, if_neg h]
    · rfl

theorem bumpKey_fold_get (keys : List Str) :
    ∀ (m : GoMap Nat) (k : Str),
      GoMap.get (keys.foldl bumpKey m) k =
        if keys.count k = 0 then GoMap.get m k
        else some ((GoMap.get m k).getD 0 + keys.count k) := by
  induction keys with
  | nil => intro m k; simp
  | cons x xs ih =>
    intro m k
    rw [List.foldl_cons, ih, bumpKey_get]
    by_cases hx : x = k
    · subst hx
      rw [List.count_cons_self, if_pos rfl, if_neg (Nat.succ_ne_zero _), Option.getD_some]
      split_ifs with h0
      · rw [h0]
      · congr 1; omega
    · rw [if_neg hx, List.count_cons_of_ne (Ne.symm hx)]

theorem CountPerTld_get (urls : List Str) :
    ∃ m, CountUniqueUrlsPerTopLevelDomain urls = some m ∧
      ∀ k, GoMap.get m k =
        if (urls.map tldOf).count k = 0 then none else some ((urls.map tldOf).count k) := by
  refine ⟨_, CountPerTld_fold urls, ?_⟩
  intro k
  have hf : urls.foldl (fun m u => bumpKey m (tldOf u)) [] = (urls.map tldOf).foldl bumpKey [] := by
    rw [List.foldl_map]
  rw [hf, bumpKey_fold_get]
  simp [GoMap.get]

/-! ### Where the first separator is -/

theorem Index_append_of_nonneg (x y sub : Str) (h : 0 ≤ Index x sub) :
    Index (x ++ y) sub = Index x sub := by
  induction x with
  | nil =>
    rw [Index_nil] at h
    split_ifs at h with hp
    · have hs : sub = [] := by
        have := (HasPrefix_iff _ _).1 hp
        simpa using this
      subst hs
      cases y <;> simp [Index_nil, Index_cons, HasPrefix]
    · omega
  | cons c t ih =>
    rw [List.cons_append, Index_cons, Index_cons]
    rw [Index_cons] at h
    by_cases hp : HasPrefix (c :: t) sub = true
    · have hp' : HasPrefix (c :: (t ++ y)) sub = true := by
        rw [HasPrefix_iff] at hp ⊢
        exact hp.trans ⟨y, rfl⟩
      rw [if_pos hp, if_pos hp']
    · rw [if_neg hp] at h ⊢
      have ht : 0 ≤ Index t sub := by
        by_contra hn
        rw [if_pos (by omega)] at h
        omega
      have hlen : sub.length ≤ (c :: t).length := by
        obtain ⟨a, b, hab, _, _⟩ := Index_nonneg_spec t sub ht
        have := congrArg List.length hab
        simp at this ⊢
        omega
      have hp' : ¬ HasPrefix (c :: (t ++ y)) sub = true := by
        intro hq
        apply hp
        rw [HasPrefix_iff] at hq ⊢
        exact List.prefix_of_prefix_length_le hq ⟨y, rfl⟩ hlen
      rw [if_neg hp', ih ht]

/-- Given that `a` holds no `"://"`, the first `"://"` of `a ++ "://" ++ y` is the
one written after `a`: the separator does not overlap itself. -/
theorem first_sep (a y : Str) (ha : ¬ ∃ p q, a = p ++ "://".toList ++ q) :
    ∀ a' b', a ++ "://".toList ++ y = a' ++ "://".toList ++ b' → a.length ≤ a'.length := by
  intro a' b' h
  have e : "://".toList = [':', '/', '/'] := rfl
  rw [e] at h ha
  rw [List.append_assoc, List.append_assoc, List.append_eq_append_iff] at h
  rcases h with ⟨r, hr, _⟩ | ⟨r, hr, hr2⟩
  · rw [hr]; simp
  · cases r with
    | nil => rw [hr]; simp
    | cons x1 r1 =>
      cases r1 with
      | nil => simp at hr2
      | cons x2 r2 =>
        cases r2 with
        | nil => simp at hr2
        | cons x3 r3 =>
          exfalso
          apply ha
          simp only [List.cons_append, List.cons.injEq, List.nil_append] at hr2
          obtain ⟨h1, h2, h3, _⟩ := hr2
          exact ⟨a', r3, by rw [hr, ← h1, ← h2, ← h3]; simp⟩

/-- The same for `".com"`. -/
theorem first_com (a y : Str) (ha : ¬ ∃ p q, a = p ++ ".com".toList ++ q) :
    ∀ a' b', a ++ ".com".toList ++ y = a' ++ ".com".toList ++ b' → a.length ≤ a'.length := by
  intro a' b' h
  have e : ".com".toList = ['.', 'c', 'o', 'm'] := rfl
  rw [e] at h ha
  rw [List.append_assoc, List.append_assoc, List.append_eq_append_iff] at h
  rcases h with ⟨r, hr, _⟩ | ⟨r, hr, hr2⟩
  · rw [hr]; simp
  · cases r with
    | nil => rw [hr]; simp
    | cons x1 r1 =>
      cases r1 with
      | nil => simp at hr2
      | cons x2 r2 =>
        cases r2 with
        | nil => simp at hr2
        | cons x3 r3 =>
          cases r3 with
          | nil => simp at hr2
          | cons x4 r4 =>
            exfalso
            apply ha
            simp only [List.cons_append, List.cons.injEq, List.nil_append] at hr2
            obtain ⟨h1, h2, h3, h4, _⟩ := hr2
            exact ⟨a', r4, by rw [hr, ← h1, ← h2, ← h3, ← h4]; simp⟩

theorem cutFirst_of_first (a sub b : Str)
    (hmin : ∀ a' b', a ++ sub ++ b = a' ++ sub ++ b' → a.length ≤ a'.length) :
    cutFirst (a ++ sub ++ b) sub = a := by
  unfold cutFirst
  rw [Index_eq_of_first a sub b hmin, if_neg (by omega), Int.toNat_ofNat]
  simp

theorem cutFirst_of_absent (s sub : Str) (h : ¬ ∃ a b, s = a ++ sub ++ b) :
    cutFirst s sub = s := by
  unfold cutFirst
  have : Index s sub < 0 := by
    by_contra hn
    obtain ⟨a, b, hab, _, _⟩ := Index_nonneg_spec s sub (by omega)
    exact h ⟨a, b, hab⟩
  rw [if_pos this]

theorem restOf_of_first (a b : Str)
    (hmin : ∀ a' b', a ++ "://".toList ++ b = a' ++ "://".toList ++ b' → a.length ≤ a'.length) :
    restOf (a ++ "://".toList ++ b) = b := by
  unfold restOf
  rw [Index_eq_of_first a _ b hmin, if_neg (by omega), Int.toNat_ofNat]
  have : a.length + 3 = (a ++ "://".toList).length := by simp
  rw [this, List.drop_left]

theorem restOf_of_absent (s : Str) (h : ¬ ∃ a b, s = a ++ "://".toList ++ b) :
    restOf s = s := by
  unfold restOf
  have : Index s "://".toList < 0 := by
    by_contra hn
    obtain ⟨a, b, hab, _, _⟩ := Index_nonneg_spec s _ (show 0 ≤ Index s "://".toList by omega)
    exact h ⟨a, b, hab⟩
  rw [if_pos this]

/-- The scheme never holds a `"://"`. -/
theorem schemeOf_no_sep (url : Str) : ¬ ∃ p q, schemeOf url = p ++ "://".toList ++ q := by
  unfold schemeOf cutFirst
  by_cases h : Index url "://".toList < 0
  · rw [if_pos h]
    exact Index_neg_spec url _ h
  · rw [if_neg h]
    obtain ⟨a, b, hab, hi, hmin⟩ := Index_nonneg_spec url _ (show 0 ≤ Index url "://".toList by omega)
    rw [hi, Int.toNat_ofNat]
    have ht : List.take a.length url = a := by rw [hab]; simp
    rw [ht]
    rintro ⟨p, q, hpq⟩
    have := hmin p (q ++ "://".toList ++ b) (by rw [hab, hpq]; simp)
    have hl := congrArg List.length hpq
    simp at hl
    omega

theorem takeWhile_idem (p : Char → Bool) (s : Str) :
    (s.takeWhile p).takeWhile p = s.takeWhile p := by
  rw [List.takeWhile_eq_self_iff]
  intro x hx
  exact (List.mem_takeWhile_imp hx)

/-- Normalising the normalised key gives the same scheme and host. -/
theorem schemeOf_keyOf (url : Str) : schemeOf (keyOf url) = schemeOf url := by
  unfold keyOf sprintfSchemeDomain
  conv_lhs => unfold schemeOf
  exact cutFirst_of_first _ _ _ (first_sep _ _ (schemeOf_no_sep url))

theorem hostOf_keyOf (url : Str) : hostOf (keyOf url) = hostOf url := by
  unfold keyOf sprintfSchemeDomain
  conv_lhs => unfold hostOf
  rw [restOf_of_first _ _ (first_sep _ _ (schemeOf_no_sep url))]
  unfold hostOf
  exact takeWhile_idem _ _

theorem keyOf_inj (a b : Str) (h : keyOf a = keyOf b) :
    schemeOf a = schemeOf b ∧ hostOf a = hostOf b := by
  constructor
  · rw [← schemeOf_keyOf a, ← schemeOf_keyOf b, h]
  · rw [← hostOf_keyOf a, ← hostOf_keyOf b, h]

/-! ### Text after the host -/

theorem isHostChar_iff (c : Char) :
    isHostChar c = true ↔ (c ≠ '/' ∧ c ≠ '#' ∧ c ≠ '?') := by
  simp [isHostChar, and_assoc]

theorem takeWhile_append_stop (p : Char → Bool) (xs t : Str)
    (ht : t = [] ∨ ∃ c r, t = c :: r ∧ p c = false) :
    (xs ++ t).takeWhile p = xs.takeWhile p := by
  rcases ht with rfl | ⟨c, r, rfl, hc⟩
  · simp
  · exact takeWhile_append_cons_neg xs r c hc

/-- Scheme and host of `s ++ "://" ++ h ++ t` do not depend on a tail `t` that
is empty or starts with `/`, `?` or `#`. -/
theorem keyOf_tail (s h t : Str)
    (ht : t = [] ∨ ∃ c r, t = c :: r ∧ (c = '/' ∨ c = '?' ∨ c = '#')) :
    keyOf (s ++ "://".toList ++ h ++ t) = keyOf (s ++ "://".toList ++ h) := by
  have hx : 0 ≤ Index (s ++ "://".toList) "://".toList := by
    by_contra hn
    exact Index_neg_spec (s ++ "://".toList) "://".toList (by omega) ⟨s, [], by simp⟩
  obtain ⟨a, b, hab, hia, _⟩ := Index_nonneg_spec _ _ hx
  have hi : ∀ y, Index (s ++ "://".toList ++ y) "://".toList = (a.length : Int) := by
    intro y
    rw [Index_append_of_nonneg _ _ _ hx, hia]
  have hsch : ∀ y, schemeOf (s ++ "://".toList ++ y) = a := by
    intro y
    unfold schemeOf cutFirst
    rw [hi y, if_neg (by omega), Int.toNat_ofNat, hab]
    simp
  have hrest : ∀ y, restOf (s ++ "://".toList ++ y) = b ++ y := by
    intro y
    unfold restOf
    rw [hi y, if_neg (by omega), Int.toNat_ofNat, hab]
    have : a.length + 3 = (a ++ "://".toList).length := by simp
    rw [this, List.append_assoc (a ++ "://".toList), List.drop_left]
  have ht' : t = [] ∨ ∃ c r, t = c :: r ∧ isHostChar c = false := by
    rcases ht with h0 | ⟨c, r, hc, hbad⟩
    · exact Or.inl h0
    · refine Or.inr ⟨c, r, hc, ?_⟩
      rcases hbad with rfl | rfl | rfl <;> rfl
  unfold keyOf hostOf
  rw [List.append_assoc (s ++ "://".toList) h t, hsch, hsch, hrest, hrest,
    ← List.append_assoc b h t, takeWhile_append_stop _ _ _ ht']

theorem count_pair (a b : Str) :
    CountUniqueUrls [a, b] = some (if keyOf a = keyOf b then 1 else 2) := by
  rw [CountUniqueUrls_eq]
  by_cases h : keyOf a = keyOf b
  · simp [h]
  · rw [if_neg h]
    simp [Finset.card_insert_of_not_mem, h]

theorem parts_of_plain (s host : Str) (hs : ¬ ∃ p q, s = p ++ "://".toList ++ q)
    (hh : ∀ c ∈ host, c ≠ '/' ∧ c ≠ '#' ∧ c ≠ '?') :
    schemeOf (s ++ "://".toList ++ host) = s ∧ hostOf (s ++ "://".toList ++ host) = host := by
  constructor
  · exact cutFirst_of_first s _ host (first_sep s host hs)
  · unfold hostOf
    rw [restOf_of_first s host (first_sep s host hs), List.takeWhile_eq_self_iff]
    exact fun c hc => (isHostChar_iff c).2 (hh c hc)

theorem no_com_of_no_dot (name : Str) (h : '.' ∉ name) :
    ¬ ∃ p q, name = p ++ ".com".toList ++ q := by
  rintro ⟨p, q, hpq⟩
  apply h
  rw [hpq]
  have e : ".com".toList = ['.', 'c', 'o', 'm'] := rfl
  rw [e]
  simp

theorem tldOf_of_host (url x name : Str) (hhost : hostOf url = x ++ ".com".toList)
    (hx : ¬ ∃ p q, x = p ++ ".com".toList ++ q) (hlast : afterLast '.' x = name) :
    tldOf url = name ++ ".com".toList := by
  unfold tldOf
  have : cutFirst (x ++ ".com".toList ++ []) ".com".toList = x :=
    cutFirst_of_first x _ [] (first_com x [] hx)
  rw [List.append_nil] at this
  rw [hhost, this, hlast]

theorem bumpKey_twice (k : Str) : bumpKey (bumpKey [] k) k = [(k, 2)] := by
  simp [bumpKey, GoMap.get, GoMap.set]

theorem topLevelDomainKey_eq (url : Str) : topLevelDomainKey url = some (tldOf url) := by
  unfold topLevelDomainKey
  have e : ".".toList = ['.'] := rfl
  simp only [getSchemeAndDomain_eq, removeSuffix_eq, Option.bind_eq_bind, Option.some_bind, e,
    Split_last, tldOf]
  rfl

theorem forall₂_map_self {α β : Type} (f : α → β) (R : α → β → Prop) (l : List α)
    (h : ∀ a, R a (f a)) : List.Forall₂ R l (l.map f) := by
  induction l with
  | nil => exact List.Forall₂.nil
  | cons a l ih => exact List.Forall₂.cons (h a) ih

/-! ## The claims -/

/-- C1: `CountUniqueUrls(urls)` is the number of distinct strings among the
keys `scheme ++ "://" ++ domain`, one key for each URL `u` of the list, with
`(scheme, domain) = getSchemeAndDomain(u)`: duplicates collapse and nothing
else is counted. -/
theorem C1_count_is_number_of_distinct_keys (urls : List Str) :
    ∃ keys : List Str,
      List.Forall₂ (fun u k => ∃ scheme domain,
        getSchemeAndDomain u = some (scheme, domain) ∧
        k = scheme ++ "://".toList ++ domain) urls keys ∧
      CountUniqueUrls urls = some keys.toFinset.card :=
  ⟨urls.map keyOf,
    forall₂_map_self keyOf _ urls (fun u => ⟨schemeOf u, hostOf u, getSchemeAndDomain_eq u, rfl⟩),
    CountUniqueUrls_eq urls⟩

/-- C2: the map returned by `CountUniqueUrlsPerTopLevelDomain(urls)` holds at
every key `k` the number of positions of the list whose top-level-domain key
is `k` (duplicates counted each time), and `k` is absent exactly when that
number is 0. -/
theorem C2_per_tld_counts_every_occurrence (urls : List Str) :
    ∃ (m : GoMap Nat) (keys : List Str),
      CountUniqueUrlsPerTopLevelDomain urls = some m ∧
      List.Forall₂ (fun u k => topLevelDomainKey u = some k) urls keys ∧
      ∀ k : Str,
        (GoMap.get m k).getD 0 = keys.count k ∧
        (GoMap.get m k = none ↔ keys.count k = 0) ∧
        (keys.count k ≠ 0 → GoMap.get m k = some (keys.count k)) := by
  obtain ⟨m, hm, hget⟩ := CountPerTld_get urls
  refine ⟨m, urls.map tldOf, hm, forall₂_map_self tldOf _ urls topLevelDomainKey_eq, ?_⟩
  intro k
  rw [hget k]
  by_cases h : (urls.map tldOf).count k = 0
  · simp [h]
  · simp [h]

/-- C3: for a URL that contains `"://"`, `getSchemeAndDomain` returns the text
before the first `"://"` as scheme and, as host, the text after it cut at the
first `/`, then at the first `#`, then at the first `?`; that host is the
longest prefix of the remainder holding none of `/`, `#`, `?`. -/
theorem C3_scheme_and_host_of_url_with_separator (url : Str)
    (h : ∃ a b, url = a ++ "://".toList ++ b) :
    ∃ scheme rest host,
      url = scheme ++ "://".toList ++ rest ∧
      (∀ a b, url = a ++ "://".toList ++ b → scheme.length ≤ a.length) ∧
      getSchemeAndDomain url = some (scheme, host) ∧
      host = ((rest.takeWhile (· != '/')).takeWhile (· != '#')).takeWhile (· != '?') ∧
      host <+: rest ∧
      (∀ c ∈ host, c ≠ '/' ∧ c ≠ '#' ∧ c ≠ '?') ∧
      ∀ p, p <+: rest → (∀ c ∈ p, c ≠ '/' ∧ c ≠ '#' ∧ c ≠ '?') → p.length ≤ host.length := by
  have hi : 0 ≤ Index url "://".toList := by
    by_contra hn
    exact Index_neg_spec url _ (by omega) h
  obtain ⟨a, b, hab, _, hmin⟩ := Index_nonneg_spec url _ hi
  have hmin' : ∀ a' b', a ++ "://".toList ++ b = a' ++ "://".toList ++ b' →
      a.length ≤ a'.length := by rw [← hab]; exact hmin
  have hs : schemeOf url = a := by
    rw [hab]; exact cutFirst_of_first a _ b hmin'
  have hr : restOf url = b := by
    rw [hab]; exact restOf_of_first a b hmin'
  have hgood : ∀ c : Char, isHostChar c = true ↔ (c ≠ '/' ∧ c ≠ '#' ∧ c ≠ '?') := by
    intro c; simp [isHostChar, and_assoc]
  refine ⟨a, b, b.takeWhile isHostChar, hab, hmin, ?_, (takeWhile_cuts b).symm,
    List.takeWhile_prefix _, ?_, ?_⟩
  · rw [getSchemeAndDomain_eq, hs]
    unfold hostOf
    rw [hr]
  · intro c hc
    exact (hgood c).1 (List.mem_takeWhile_imp hc)
  · rintro p ⟨r, rfl⟩ hp
    rw [List.takeWhile_append_of_pos (fun c hc => (hgood c).2 (hp c hc))]
    simp

/-- Witness for C3 at `"https://example.com/a?b#c"`. -/
theorem C3_scheme_and_host_of_url_with_separator_witness :
    (∃ a b, "https://example.com/a?b#c".toList = a ++ "://".toList ++ b) ∧
    ∃ scheme rest host,
      "https://example.com/a?b#c".toList = scheme ++ "://".toList ++ rest ∧
      (∀ a b, "https://example.com/a?b#c".toList = a ++ "://".toList ++ b →
        scheme.length ≤ a.length) ∧
      getSchemeAndDomain "https://example.com/a?b#c".toList = some (scheme, host) ∧
      host = ((rest.takeWhile (· != '/')).takeWhile (· != '#')).takeWhile (· != '?') ∧
      host <+: rest ∧
      (∀ c ∈ host, c ≠ '/' ∧ c ≠ '#' ∧ c ≠ '?') ∧
      ∀ p, p <+: rest → (∀ c ∈ p, c ≠ '/' ∧ c ≠ '#' ∧ c ≠ '?') → p.length ≤ host.length :=
  ⟨⟨"https".toList, "example.com/a?b#c".toList, by decide⟩,
    C3_scheme_and_host_of_url_with_separator "https://example.com/a?b#c".toList
      ⟨"https".toList, "example.com/a?b#c".toList, by decide⟩⟩

/-- C4: path, query and fragment are ignored. For every `s`, every `h` holding
none of `/`, `#`, `?`, and tails `t1`, `t2` that are empty or begin with `/`,
`?` or `#`, the two URLs `s ++ "://" ++ h ++ t1` and `s ++ "://" ++ h ++ t2`
count as one. -/
theorem C4_path_query_fragment_ignored (s h t1 t2 : Str)
    (_hh : ∀ c ∈ h, c ≠ '/' ∧ c ≠ '#' ∧ c ≠ '?')
    (ht1 : t1 = [] ∨ ∃ c r, t1 = c :: r ∧ (c = '/' ∨ c = '?' ∨ c = '#'))
    (ht2 : t2 = [] ∨ ∃ c r, t2 = c :: r ∧ (c = '/' ∨ c = '?' ∨ c = '#')) :
    CountUniqueUrls [s ++ "://".toList ++ h ++ t1, s ++ "://".toList ++ h ++ t2] = some 1 := by
  rw [count_pair, keyOf_tail s h t1 ht1, keyOf_tail s h t2 ht2, if_pos rfl]

/-- Witness for C4: the three pairs of the source's doc comment. -/
theorem C4_path_query_fragment_ignored_witness :
    CountUniqueUrls ["https".toList ++ "://".toList ++ "example.com".toList ++ "".toList,
      "https".toList ++ "://".toList ++ "example.com".toList ++ "/".toList] = some 1 ∧
    CountUniqueUrls ["https".toList ++ "://".toList ++ "example.com".toList ++ "?".toList,
      "https".toList ++ "://".toList ++ "example.com".toList ++ "".toList] = some 1 ∧
    CountUniqueUrls ["https".toList ++ "://".toList ++ "example.com".toList ++ "?a=1&b=2".toList,
      "https".toList ++ "://".toList ++ "example.com".toList ++ "?b=2&a=1".toList] = some 1 :=
  ⟨C4_path_query_fragment_ignored "https".toList "example.com".toList "".toList "/".toList
      (by decide) (Or.inl rfl) (Or.inr ⟨'/', [], rfl, Or.inl rfl⟩),
    C4_path_query_fragment_ignored "https".toList "example.com".toList "?".toList "".toList
      (by decide) (Or.inr ⟨'?', [], rfl, Or.inr (Or.inl rfl)⟩) (Or.inl rfl),
    C4_path_query_fragment_ignored "https".toList "example.com".toList "?a=1&b=2".toList
      "?b=2&a=1".toList (by decide)
      (Or.inr ⟨'?', "a=1&b=2".toList, rfl, Or.inr (Or.inl rfl)⟩)
      (Or.inr ⟨'?', "b=2&a=1".toList, rfl, Or.inr (Or.inl rfl)⟩)⟩

/-- C5: two URLs count as one exactly when `getSchemeAndDomain` gives them the
same scheme and the same host; the key `scheme ++ "://" ++ host` never merges
two different pairs. -/
theorem C5_same_key_iff_same_scheme_and_host (a b : Str) :
    CountUniqueUrls [a, b] =
      some (if getSchemeAndDomain a = getSchemeAndDomain b then 1 else 2) := by
  rw [count_pair, getSchemeAndDomain_eq, getSchemeAndDomain_eq]
  by_cases h : keyOf a = keyOf b
  · obtain ⟨h1, h2⟩ := keyOf_inj a b h
    rw [if_pos h, if_pos (by rw [h1, h2])]
  · have : ¬ (some (schemeOf a, hostOf a) = some (schemeOf b, hostOf b)) := by
      intro he
      apply h
      simp only [Option.some.injEq, Prod.mk.injEq] at he
      unfold keyOf
      rw [he.1, he.2]
    rw [if_neg h, if_neg this]

/-- C6, as stated, fails: with the scheme text `s = "a://b"` the first `"://"`
lies inside `s`, the host of both URLs is `"b:"`, and the map is
`{"b:.com": 2}`, not `{"example.com": 2}`. -/
theorem C6_counterexample_separator_in_scheme :
    ("example".toList ≠ [] ∧ ∀ c ∈ "example".toList, c ≠ '.' ∧ c ≠ '/' ∧ c ≠ '#' ∧ c ≠ '?') ∧
    ("subdomain".toList ≠ [] ∧ ∀ c ∈ "subdomain".toList, c ≠ '/' ∧ c ≠ '#' ∧ c ≠ '?') ∧
    CountUniqueUrlsPerTopLevelDomain
      ["a://b".toList ++ "://".toList ++ "example".toList ++ ".com".toList,
       "a://b".toList ++ "://".toList ++ "subdomain".toList ++ ".".toList ++ "example".toList ++
         ".com".toList] = some [("b:.com".toList, 2)] ∧
    CountUniqueUrlsPerTopLevelDomain
      ["a://b".toList ++ "://".toList ++ "example".toList ++ ".com".toList,
       "a://b".toList ++ "://".toList ++ "subdomain".toList ++ ".".toList ++ "example".toList ++
         ".com".toList] ≠ some [("example".toList ++ ".com".toList, 2)] := by
  decide

/-- C6, amended: when `s` holds no `"://"` and `".com"` does not occur inside
`sub ++ "." ++ name`, the two URLs `s://name.com` and `s://sub.name.com` give the
map with the single entry `name.com -> 2`. -/
theorem C6_subdomain_counted_under_top_level_domain (s name sub : Str)
    (hs : ¬ ∃ p q, s = p ++ "://".toList ++ q)
    (_hname : name ≠ [])
    (hn : ∀ c ∈ name, c ≠ '.' ∧ c ≠ '/' ∧ c ≠ '#' ∧ c ≠ '?')
    (_hsub : sub ≠ [])
    (hsb : ∀ c ∈ sub, c ≠ '/' ∧ c ≠ '#' ∧ c ≠ '?')
    (hcom : ¬ ∃ p q, sub ++ ".".toList ++ name = p ++ ".com".toList ++ q) :
    CountUniqueUrlsPerTopLevelDomain
      [s ++ "://".toList ++ name ++ ".com".toList,
       s ++ "://".toList ++ sub ++ ".".toList ++ name ++ ".com".toList] =
      some [(name ++ ".com".toList, 2)] := by
  have hdot : '.' ∉ name := fun hc => (hn '.' hc).1 rfl
  have hcomgood : ∀ c ∈ ".com".toList, c ≠ '/' ∧ c ≠ '#' ∧ c ≠ '?' := by decide
  have hdotgood : ∀ c ∈ ".".toList, c ≠ '/' ∧ c ≠ '#' ∧ c ≠ '?' := by decide
  have h1 : hostOf (s ++ "://".toList ++ name ++ ".com".toList) = name ++ ".com".toList := by
    rw [List.append_assoc (s ++ "://".toList)]
    refine (parts_of_plain s _ hs ?_).2
    intro c hc
    rcases List.mem_append.1 hc with hc | hc
    · exact (hn c hc).2
    · exact hcomgood c hc
  have h2 : hostOf (s ++ "://".toList ++ sub ++ ".".toList ++ name ++ ".com".toList) =
      (sub ++ ".".toList ++ name) ++ ".com".toList := by
    have e : s ++ "://".toList ++ sub ++ ".".toList ++ name ++ ".com".toList =
        s ++ "://".toList ++ ((sub ++ ".".toList ++ name) ++ ".com".toList) := by
      simp only [List.append_assoc]
    rw [e]
    refine (parts_of_plain s _ hs ?_).2
    intro c hc
    rcases List.mem_append.1 hc with hc | hc
    · rcases List.mem_append.1 hc with hc | hc
      · rcases List.mem_append.1 hc with hc | hc
        · exact hsb c hc
        · exact hdotgood c hc
      · exact (hn c hc).2
    · exact hcomgood c hc
  have t1 : tldOf (s ++ "://".toList ++ name ++ ".com".toList) = name ++ ".com".toList :=
    tldOf_of_host _ name name h1 (no_com_of_no_dot name hdot) (afterLast_of_not_mem name '.' hdot)
  have t2 : tldOf (s ++ "://".toList ++ sub ++ ".".toList ++ name ++ ".com".toList) =
      name ++ ".com".toList := by
    refine tldOf_of_host _ (sub ++ ".".toList ++ name) name h2 hcom ?_
    have e : ".".toList = ['.'] := rfl
    rw [e, afterLast_append, afterLast_of_not_mem name '.' hdot]
  rw [CountPerTld_fold]
  simp only [List.foldl_cons, List.foldl_nil, t1, t2, bumpKey_twice]

/-- Witness for the amended C6: the pair of the source's doc comment. -/
theorem C6_subdomain_counted_under_top_level_domain_witness :
    CountUniqueUrlsPerTopLevelDomain
      ["https".toList ++ "://".toList ++ "example".toList ++ ".com".toList,
       "https".toList ++ "://".toList ++ "subdomain".toList ++ ".".toList ++ "example".toList ++
         ".com".toList] = some [("example".toList ++ ".com".toList, 2)] :=
  C6_subdomain_counted_under_top_level_domain "https".toList "example".toList "subdomain".toList
    (fun hc => absurd ((Contains_iff _ _).2 hc) (by decide))
    (by decide) (by decide) (by decide) (by decide)
    (fun hc => absurd ((Contains_iff _ _).2 hc) (by decide))

/-- C7: on `"https://a.company.com"` the host is `"a.company.com"`; the code cuts
it at the first `".com"`, inside `".company"`, and counts the URL under
`"a.com"`, while the derivation of the specification gives `"company.com"`. -/
theorem C7_key_differs_from_spec_derivation :
    getSchemeAndDomain "https://a.company.com".toList =
      some ("https".toList, "a.company.com".toList) ∧
    topLevelDomainKey "https://a.company.com".toList = some "a.com".toList ∧
    specTopLevelDomain "a.company.com".toList = some "company.com".toList ∧
    CountUniqueUrlsPerTopLevelDomain ["https://a.company.com".toList] =
      some [("a.com".toList, 1)] := by
  decide

/-- C8, as stated, fails: `"example.com"` holds no `"://"`, yet
`getSchemeAndDomain` returns a scheme and a host, and both counters return a
result for the list made of it. -/
theorem C8_counterexample_no_error_without_separator :
    (¬ ∃ a b, "example.com".toList = a ++ "://".toList ++ b) ∧
    getSchemeAndDomain "example.com".toList ≠ none ∧
    getSchemeAndDomain "example.com".toList =
      some ("example.com".toList, "example.com".toList) ∧
    CountUniqueUrls ["example.com".toList] = some 1 ∧
    CountUniqueUrlsPerTopLevelDomain ["example.com".toList] =
      some [("example.com".toList, 1)] :=
  ⟨fun hc => absurd ((Contains_iff _ _).2 hc) (by decide), by decide, by decide, by decide,
    by decide⟩

/-- C8, amended: for a URL without `"://"`, `getSchemeAndDomain` does not fail;
it returns the whole URL as scheme and, as host, the URL cut at the first `/`,
then `#`, then `?`. Both counters return a result on a list containing it. -/
theorem C8_url_without_separator_is_accepted (url : Str) (urls : List Str)
    (h : ¬ ∃ a b, url = a ++ "://".toList ++ b) (_hmem : url ∈ urls) :
    getSchemeAndDomain url =
      some (url, ((url.takeWhile (· != '/')).takeWhile (· != '#')).takeWhile (· != '?')) ∧
    (∃ n, CountUniqueUrls urls = some n) ∧
    ∃ m, CountUniqueUrlsPerTopLevelDomain urls = some m := by
  refine ⟨?_, ⟨_, CountUniqueUrls_eq urls⟩, ⟨_, CountPerTld_fold urls⟩⟩
  rw [getSchemeAndDomain_eq, takeWhile_cuts]
  unfold schemeOf hostOf
  rw [cutFirst_of_absent url _ h, restOf_of_absent url h]

/-- Witness for the amended C8 at `"example.com/a?b"`. -/
theorem C8_url_without_separator_is_accepted_witness :
    getSchemeAndDomain "example.com/a?b".toList =
      some ("example.com/a?b".toList,
        ((("example.com/a?b".toList).takeWhile (· != '/')).takeWhile (· != '#')).takeWhile
          (· != '?')) ∧
    (∃ n, CountUniqueUrls ["https://x.com".toList, "example.com/a?b".toList] = some n) ∧
    ∃ m, CountUniqueUrlsPerTopLevelDomain
      ["https://x.com".toList, "example.com/a?b".toList] = some m :=
  C8_url_without_separator_is_accepted "example.com/a?b".toList
    ["https://x.com".toList, "example.com/a?b".toList]
    (fun hc => absurd ((Contains_iff _ _).2 hc) (by decide)) (by decide)

/-- C9: `CountUniqueUrls` gives the same count on a permutation of the list. -/
theorem C9_count_invariant_under_permutation (xs ys : List Str) (h : xs.Perm ys) :
    CountUniqueUrls xs = CountUniqueUrls ys := by
  rw [CountUniqueUrls_eq, CountUniqueUrls_eq,
    List.toFinset_eq_of_perm _ _ (h.map keyOf)]

/-- Witness for C9: a list of three URLs and a rearrangement of it. -/
theorem C9_count_invariant_under_permutation_witness :
    ["https://a.com".toList, "http://b.com/x".toList, "https://a.com?q".toList].Perm
      ["http://b.com/x".toList, "https://a.com".toList, "https://a.com?q".toList] ∧
    CountUniqueUrls ["https://a.com".toList, "http://b.com/x".toList, "https://a.com?q".toList] =
      CountUniqueUrls ["http://b.com/x".toList, "https://a.com".toList, "https://a.com?q".toList] :=
  ⟨List.Perm.swap _ _ _,
    C9_count_invariant_under_permutation _ _ (List.Perm.swap _ _ _)⟩

/-- C10: normalisation is idempotent. With `(scheme, host) =
getSchemeAndDomain(u)` and `key = scheme ++ "://" ++ host`, normalising `key`
gives `(scheme, host)` again, so the key of `key` is `key`; the first `"://"`
of `key` is the one written between scheme and host. -/
theorem C10_normalisation_idempotent (u : Str) :
    ∃ scheme host,
      getSchemeAndDomain u = some (scheme, host) ∧
      getSchemeAndDomain (sprintfSchemeDomain scheme host) = some (scheme, host) ∧
      (getSchemeAndDomain (sprintfSchemeDomain scheme host)).map
          (fun p => sprintfSchemeDomain p.1 p.2) = some (sprintfSchemeDomain scheme host) ∧
      Index (sprintfSchemeDomain scheme host) "://".toList = (scheme.length : Int) := by
  have hk : getSchemeAndDomain (sprintfSchemeDomain (schemeOf u) (hostOf u)) =
      some (schemeOf u, hostOf u) := by
    have := getSchemeAndDomain_eq (keyOf u)
    rw [schemeOf_keyOf, hostOf_keyOf] at this
    exact this
  refine ⟨schemeOf u, hostOf u, getSchemeAndDomain_eq u, hk, ?_, ?_⟩
  · rw [hk]; rfl
  · exact Index_eq_of_first _ _ _ (first_sep _ _ (schemeOf_no_sep u))

/-! ## Further facts about the counters -/

/-! ### Keys, entries and values of the per-domain map -/

theorem bumpKey_keys (m : GoMap Nat) (k : Str) :
    (bumpKey m k).map Prod.fst =
      if k ∈ m.map Prod.fst then m.map Prod.fst else m.map Prod.fst ++ [k] := by
  unfold bumpKey
  by_cases h : k ∈ m.map Prod.fst
  · have hn : ¬ (GoMap.get m k).isNone = true := by
      rw [Option.isNone_iff_eq_none, GoMap.get_eq_none_iff]
      exact not_not.2 h
    simp only [if_neg hn, if_pos h]
    exact GoMap.keys_set_old m k _ h
  · have hn : (GoMap.get m k).isNone = true := by
      rw [Option.isNone_iff_eq_none, GoMap.get_eq_none_iff]
      exact h
    simp only [if_pos hn, if_neg h]
    have hk : k ∈ (GoMap.set m k 0).map Prod.fst := by
      rw [GoMap.keys_set_new m k 0 h]; simp
    rw [GoMap.keys_set_old _ k _ hk, GoMap.keys_set_new m k 0 h]

theorem bumpKey_fold_keys (keys : List Str) :
    ∀ m : GoMap Nat, (m.map Prod.fst).Nodup →
      ((keys.foldl bumpKey m).map Prod.fst).Nodup ∧
      ((keys.foldl bumpKey m).map Prod.fst).toFinset =
        (m.map Prod.fst).toFinset ∪ keys.toFinset := by
  induction keys with
  | nil => intro m hm; simp [hm]
  | cons k ks ih =>
    intro m hm
    have hk := bumpKey_keys m k
    have hnd : ((bumpKey m k).map Prod.fst).Nodup := by
      rw [hk]
      split_ifs with h
      · exact hm
      · exact List.Nodup.append hm (List.nodup_singleton k) (by simpa using h)
    obtain ⟨h1, h2⟩ := ih (bumpKey m k) hnd
    refine ⟨h1, ?_⟩
    rw [List.foldl_cons, h2, hk]
    ext x
    split_ifs with h
    · simp only [Finset.mem_union, List.mem_toFinset, List.mem_cons]
      constructor
      · rintro (h' | h')
        · exact Or.inl h'
        · exact Or.inr (Or.inr h')
      · rintro (h' | h' | h')
        · exact Or.inl h'
        · exact Or.inl (h' ▸ h)
        · exact Or.inr h'
    · simp only [Finset.mem_union, List.mem_toFinset, List.mem_cons, List.mem_append,
        List.mem_singleton]
      tauto

theorem GoMap.get_of_mem {V : Type} (m : GoMap V) (k : Str) (v : V)
    (hnd : (m.map Prod.fst).Nodup) (h : (k, v) ∈ m) : GoMap.get m k = some v := by
  induction m with
  | nil => simp at h
  | cons p m ih =>
    obtain ⟨k0, v0⟩ := p
    rw [List.map_cons, List.nodup_cons] at hnd
    rw [GoMap.get_cons]
    rcases List.mem_cons.1 h with h | h
    · cases h
      rw [if_pos rfl]
    · have hk : k ∈ m.map Prod.fst := List.mem_map.2 ⟨(k, v), h, rfl⟩
      have hne : ¬ k0 = k := fun e => hnd.1 (e ▸ hk)
      rw [if_neg hne]
      exact ih hnd.2 h

theorem GoMap.sum_set (m : GoMap Nat) (k : Str) (v : Nat) :
    ((GoMap.set m k v).map Prod.snd).sum + (GoMap.get m k).getD 0 =
      (m.map Prod.snd).sum + v := by
  induction m with
  | nil => simp [GoMap.set, GoMap.get]
  | cons p m ih =>
    obtain ⟨k0, v0⟩ := p
    rw [GoMap.set_cons, GoMap.get_cons]
    by_cases h : k0 = k
    · rw [if_pos h, if_pos h]
      simp only [List.map_cons, List.sum_cons, Option.getD_some]
      omega
    · rw [if_neg h, if_neg h]
      simp only [List.map_cons, List.sum_cons]
      omega

theorem bumpKey_sum (m : GoMap Nat) (k : Str) :
    ((bumpKey m k).map Prod.snd).sum = (m.map Prod.snd).sum + 1 := by
  unfold bumpKey
  by_cases hn : (GoMap.get m k).isNone = true
  · simp only [if_pos hn]
    have h0 := GoMap.sum_set m k 0
    have h1 := GoMap.sum_set (GoMap.set m k 0) k ((GoMap.get (GoMap.set m k 0) k).getD 0 + 1)
    rw [Option.isNone_iff_eq_none] at hn
    rw [hn] at h0
    simp only [Option.getD_none] at h0
    omega
  · simp only [if_neg hn]
    have h1 := GoMap.sum_set m k ((GoMap.get m k).getD 0 + 1)
    omega

theorem bumpKey_fold_sum (keys : List Str) :
    ∀ m : GoMap Nat,
      ((keys.foldl bumpKey m).map Prod.snd).sum = (m.map Prod.snd).sum + keys.length := by
  induction keys with
  | nil => intro m; simp
  | cons k ks ih =>
    intro m
    rw [List.foldl_cons, ih, bumpKey_sum, List.length_cons]
    omega

/-- The map of `CountUniqueUrlsPerTopLevelDomain`: its keys are pairwise
distinct and are exactly the keys of the URLs of the list. -/
theorem CountPerTld_keys (urls : List Str) :
    ∃ m, CountUniqueUrlsPerTopLevelDomain urls = some m ∧
      m = (urls.map tldOf).foldl bumpKey [] ∧
      (m.map Prod.fst).Nodup ∧
      (m.map Prod.fst).toFinset = (urls.map tldOf).toFinset := by
  have hf : urls.foldl (fun m u => bumpKey m (tldOf u)) [] = (urls.map tldOf).foldl bumpKey [] := by
    rw [List.foldl_map]
  obtain ⟨h1, h2⟩ := bumpKey_fold_keys (urls.map tldOf) [] (by simp)
  refine ⟨_, (CountPerTld_fold urls).trans (by rw [hf]), rfl, h1, ?_⟩
  rw [h2]
  simp

/-! ### The shape of a key -/

theorem tldOf_keyOf (url : Str) : tldOf (keyOf url) = tldOf url := by
  unfold tldOf
  rw [hostOf_keyOf]

theorem mem_afterLast (c x : Char) (s : Str) (h : x ∈ afterLast c s) : x ≠ c ∧ x ∈ s := by
  unfold afterLast at h
  rw [List.mem_reverse] at h
  constructor
  · have hb := List.mem_takeWhile_imp h
    exact bne_iff_ne.1 hb
  · exact List.mem_reverse.1 ((List.takeWhile_sublist _).subset h)

theorem mem_cutFirst (x : Char) (s sub : Str) (h : x ∈ cutFirst s sub) : x ∈ s := by
  unfold cutFirst at h
  split_ifs at h
  · exact h
  · exact List.mem_of_mem_take h

theorem mem_hostOf (x : Char) (url : Str) (h : x ∈ hostOf url) :
    x ≠ '/' ∧ x ≠ '#' ∧ x ≠ '?' := by
  unfold hostOf at h
  exact (isHostChar_iff x).1 (List.mem_takeWhile_imp h)

/-! ### The order of the truncations -/

theorem takeWhile_takeWhile (p q : Char → Bool) (l : Str) :
    (l.takeWhile q).takeWhile p = l.takeWhile (fun x => q x && p x) := by
  induction l with
  | nil => rfl
  | cons x t ih =>
    by_cases hq : q x = true
    · by_cases hp : p x = true
      · simp [List.takeWhile_cons, hq, hp, ih]
      · simp [List.takeWhile_cons, hq, hp]
    · simp [List.takeWhile_cons, hq]

theorem foldl_takeWhile (order : List Char) :
    ∀ rest : Str,
      order.foldl (fun d c => d.takeWhile (· != c)) rest =
        rest.takeWhile (fun x => decide (x ∉ order)) := by
  induction order with
  | nil =>
    intro rest
    have : rest.takeWhile (fun _ => true) = rest :=
      List.takeWhile_eq_self_iff.2 (fun _ _ => rfl)
    simp [this]
  | cons c cs ih =>
    intro rest
    rw [List.foldl_cons, ih, takeWhile_takeWhile]
    congr 1
    funext x
    by_cases h1 : x = c
    · simp [h1]
    · by_cases h2 : x ∈ cs
      · simp [h1, h2]
      · simp [h1, h2]

theorem truncateInOrder_eq (order : List Char) (rest : Str) :
    truncateInOrder order rest = some (rest.takeWhile (fun x => decide (x ∉ order))) := by
  unfold truncateInOrder
  have hstep : truncateAt = fun d c => some (d.takeWhile (· != c)) := by
    funext d c
    unfold truncateAt
    exact cut_step d c
  rw [hstep, foldlM_some, foldl_takeWhile]

theorem truncateInOrder_perm (order : List Char) (h : order.Perm ['/', '#', '?']) (url : Str) :
    truncateInOrder order (TrimPrefix url (schemeOf url ++ "://".toList)) =
      some (hostOf url) := by
  rw [truncateInOrder_eq, TrimPrefix_scheme]
  unfold hostOf
  congr 2
  funext x
  have hm : x ∈ order ↔ x ∈ ['/', '#', '?'] := h.mem_iff
  rw [Bool.eq_iff_iff, isHostChar_iff, decide_eq_true_iff, hm]
  simp

/-! ## The claims on the per-domain counter, on safety and on bounds -/

/-- C11: the code counts a URL that is given twice two times. On
`["https://example.com", "https://example.com"]` there is one distinct
normalised key under `"example.com"`, yet the map holds `"example.com" -> 2`. -/
theorem C11_repeated_url_counted_twice :
    CountUniqueUrls ["https://example.com".toList, "https://example.com".toList] = some 1 ∧
    topLevelDomainKey "https://example.com".toList = some "example.com".toList ∧
    CountUniqueUrlsPerTopLevelDomain
      ["https://example.com".toList, "https://example.com".toList] =
      some [("example.com".toList, 2)] ∧
    CountUniqueUrlsPerTopLevelDomain
      ["https://example.com".toList, "https://example.com/".toList] =
      some [("example.com".toList, 2)] := by
  decide

/-- C12: every value stored in the map returned by
`CountUniqueUrlsPerTopLevelDomain` is at least 1; no key is present with
value 0. -/
theorem C12_per_tld_values_positive (urls : List Str) :
    ∃ m : GoMap Nat, CountUniqueUrlsPerTopLevelDomain urls = some m ∧
      (∀ k v, (k, v) ∈ m → 1 ≤ v) ∧
      ∀ k, GoMap.get m k ≠ some 0 := by
  obtain ⟨m, hm, _, hnd, _⟩ := CountPerTld_keys urls
  obtain ⟨m', hm', hget⟩ := CountPerTld_get urls
  have hmm : m' = m := Option.some.inj (hm'.symm.trans hm)
  subst hmm
  have hpos : ∀ k v, GoMap.get m' k = some v → 1 ≤ v := by
    intro k v hv
    rw [hget k] at hv
    split_ifs at hv with h0
    cases hv
    omega
  refine ⟨m', hm, ?_, ?_⟩
  · intro k v hkv
    exact hpos k v (GoMap.get_of_mem m' k v hnd hkv)
  · intro k h0
    have := hpos k 0 h0
    omega

/-- C13: on the empty list `CountUniqueUrls` returns 0 and
`CountUniqueUrlsPerTopLevelDomain` returns the empty map. -/
theorem C13_empty_input :
    CountUniqueUrls [] = some 0 ∧ CountUniqueUrlsPerTopLevelDomain [] = some [] :=
  ⟨rfl, rfl⟩

/-- C14: every key of the map returned by `CountUniqueUrlsPerTopLevelDomain`
is `L ++ ".com"` for a label `L` holding no `.` and none of `/`, `#`, `?`. -/
theorem C14_keys_are_label_dot_com (urls : List Str) :
    ∃ m : GoMap Nat, CountUniqueUrlsPerTopLevelDomain urls = some m ∧
      ∀ k ∈ m.map Prod.fst, ∃ label : Str, k = label ++ ".com".toList ∧
        ∀ c ∈ label, c ≠ '.' ∧ c ≠ '/' ∧ c ≠ '#' ∧ c ≠ '?' := by
  obtain ⟨m, hm, _, _, hkeys⟩ := CountPerTld_keys urls
  refine ⟨m, hm, ?_⟩
  intro k hk
  have hk' : k ∈ (urls.map tldOf).toFinset := by
    rw [← hkeys]; exact List.mem_toFinset.2 hk
  obtain ⟨u, _, rfl⟩ := List.mem_map.1 (List.mem_toFinset.1 hk')
  refine ⟨afterLast '.' (cutFirst (hostOf u) ".com".toList), rfl, ?_⟩
  intro c hc
  obtain ⟨h1, h2⟩ := mem_afterLast '.' c _ hc
  exact ⟨h1, mem_hostOf c u (mem_cutFirst c _ _ h2)⟩

/-- C15, as stated, fails: there is no URL for which another order of the
three truncations gives another host. On `"https://a.com?x#y/z"`, with `?`
before `#` before `/`, all six orders give `"a.com"`; and no URL and no order
give a host other than the one `getSchemeAndDomain` returns. -/
theorem C15_counterexample_no_order_changes_host :
    (getSchemeAndDomain "https://a.com?x#y/z".toList = some ("https".toList, "a.com".toList) ∧
      ∀ order ∈ [['/', '#', '?'], ['/', '?', '#'], ['#', '/', '?'], ['#', '?', '/'],
          ['?', '/', '#'], ['?', '#', '/']],
        truncateInOrder order (TrimPrefix "https://a.com?x#y/z".toList
          ("https".toList ++ "://".toList)) = some "a.com".toList) ∧
    ¬ ∃ (url : Str) (order : List Char),
      '?' ∈ url ∧ '#' ∈ url ∧ order.Perm ['/', '#', '?'] ∧
      ∃ scheme host, getSchemeAndDomain url = some (scheme, host) ∧
        truncateInOrder order (TrimPrefix url (scheme ++ "://".toList)) ≠ some host := by
  refine ⟨by decide, ?_⟩
  rintro ⟨url, order, _, _, hperm, scheme, host, hsd, hne⟩
  rw [getSchemeAndDomain_eq] at hsd
  cases hsd
  exact hne (truncateInOrder_perm order hperm url)

/-- C15, amended: the order of the three truncations does not matter. For
every URL and every order of `/`, `#`, `?`, cutting the text after the scheme
in that order gives the host `getSchemeAndDomain` returns, and that host is the
longest prefix of the text after the scheme that holds none of the three
characters. -/
theorem C15_truncation_order_irrelevant (url : Str) (order : List Char)
    (h : order.Perm ['/', '#', '?']) :
    ∃ scheme host, getSchemeAndDomain url = some (scheme, host) ∧
      truncateInOrder order (TrimPrefix url (scheme ++ "://".toList)) = some host ∧
      host <+: TrimPrefix url (scheme ++ "://".toList) ∧
      (∀ c ∈ host, c ≠ '/' ∧ c ≠ '#' ∧ c ≠ '?') ∧
      ∀ p, p <+: TrimPrefix url (scheme ++ "://".toList) →
        (∀ c ∈ p, c ≠ '/' ∧ c ≠ '#' ∧ c ≠ '?') → p.length ≤ host.length := by
  refine ⟨schemeOf url, hostOf url, getSchemeAndDomain_eq url,
    truncateInOrder_perm order h url, ?_, fun c hc => mem_hostOf c url hc, ?_⟩
  · rw [TrimPrefix_scheme]
    exact List.takeWhile_prefix _
  · rw [TrimPrefix_scheme]
    rintro p ⟨r, hr⟩ hp
    unfold hostOf
    rw [← hr, List.takeWhile_append_of_pos (fun c hc => (isHostChar_iff c).2 (hp c hc))]
    simp

/-- Witness for the amended C15: `"https://a.com?x#y/z"` cut at `?`, then `#`,
then `/`. -/
theorem C15_truncation_order_irrelevant_witness :
    ['?', '#', '/'].Perm ['/', '#', '?'] ∧
    ∃ scheme host, getSchemeAndDomain "https://a.com?x#y/z".toList = some (scheme, host) ∧
      truncateInOrder ['?', '#', '/']
        (TrimPrefix "https://a.com?x#y/z".toList (scheme ++ "://".toList)) = some host ∧
      host <+: TrimPrefix "https://a.com?x#y/z".toList (scheme ++ "://".toList) ∧
      (∀ c ∈ host, c ≠ '/' ∧ c ≠ '#' ∧ c ≠ '?') ∧
      ∀ p, p <+: TrimPrefix "https://a.com?x#y/z".toList (scheme ++ "://".toList) →
        (∀ c ∈ p, c ≠ '/' ∧ c ≠ '#' ∧ c ≠ '?') → p.length ≤ host.length :=
  ⟨by decide, C15_truncation_order_irrelevant "https://a.com?x#y/z".toList ['?', '#', '/']
    (by decide)⟩

/-- C16: nothing indexes out of bounds. `strings.Split` on `"://"` and on `"."`
yields at least one segment, so `segments[0]` and `segments[len(segments)-1]`
exist and both functions return; for a URL without `"://"`,
`getSchemeAndDomain` returns the whole URL as scheme and, as host, the URL cut
at its first `/`, `#` or `?`. -/
theorem C16_no_index_out_of_bounds (url : Str) :
    (Split url "://".toList ≠ [] ∧
      ∃ scheme, indexAt (Split url "://".toList) 0 = some scheme) ∧
    (∀ s : Str, Split s ".".toList ≠ [] ∧
      ∃ last, indexAt (Split s ".".toList) (((Split s ".".toList).length : Int) - 1) =
        some last) ∧
    (∃ scheme host, getSchemeAndDomain url = some (scheme, host)) ∧
    (∀ urls : List Str, ∃ m, CountUniqueUrlsPerTopLevelDomain urls = some m) ∧
    ((¬ ∃ a b, url = a ++ "://".toList ++ b) →
      getSchemeAndDomain url =
        some (url, url.takeWhile (fun c => c != '/' && c != '#' && c != '?'))) := by
  have hne : ∀ (s sep : Str), sep ≠ [] → Split s sep ≠ [] := by
    intro s sep hsep
    unfold Split
    rw [if_neg hsep]
    exact splitLoop_ne_nil _ _ _
  refine ⟨⟨hne url _ (by decide), _, Split_head url _ (by decide)⟩, ?_,
    ⟨_, _, getSchemeAndDomain_eq url⟩, fun urls => ⟨_, CountPerTld_fold urls⟩, ?_⟩
  · intro s
    exact ⟨hne s _ (by decide), _, Split_last s '.'⟩
  · intro h
    rw [getSchemeAndDomain_eq]
    unfold schemeOf hostOf
    rw [cutFirst_of_absent url _ h, restOf_of_absent url h]
    rfl

/-- Witness for C16 at the empty string and at `"example.com/a?b"`, which hold
no `"://"`. -/
theorem C16_no_index_out_of_bounds_witness :
    getSchemeAndDomain "".toList = some ("".toList, "".toList) ∧
    getSchemeAndDomain "example.com/a?b".toList =
      some ("example.com/a?b".toList, "example.com".toList) :=
  ⟨(C16_no_index_out_of_bounds "".toList).2.2.2.2
      (fun hc => absurd ((Contains_iff _ _).2 hc) (by decide)),
    (C16_no_index_out_of_bounds "example.com/a?b".toList).2.2.2.2
      (fun hc => absurd ((Contains_iff _ _).2 hc) (by decide))⟩

/-- C17: the values of the map returned by `CountUniqueUrlsPerTopLevelDomain`
sum to `len(urls)`: every URL is counted once, under one key. -/
theorem C17_per_tld_values_sum_to_length (urls : List Str) :
    ∃ m : GoMap Nat, CountUniqueUrlsPerTopLevelDomain urls = some m ∧
      (m.map Prod.snd).sum = urls.length := by
  obtain ⟨m, hm, hfold, _, _⟩ := CountPerTld_keys urls
  refine ⟨m, hm, ?_⟩
  rw [hfold, bumpKey_fold_sum]
  simp

/-- C18: the map of `CountUniqueUrlsPerTopLevelDomain` has at most
`CountUniqueUrls(urls)` keys, and two URLs with the same normalised key
`scheme ++ "://" ++ host` have the same top-level-domain key. -/
theorem C18_keys_at_most_unique_urls (urls : List Str) :
    (∃ (m : GoMap Nat) (n : Nat),
      CountUniqueUrlsPerTopLevelDomain urls = some m ∧ CountUniqueUrls urls = some n ∧
      GoMap.len m ≤ n) ∧
    ∀ (a b : Str) (sa ha sb hb : Str),
      getSchemeAndDomain a = some (sa, ha) → getSchemeAndDomain b = some (sb, hb) →
      sprintfSchemeDomain sa ha = sprintfSchemeDomain sb hb →
      topLevelDomainKey a = topLevelDomainKey b := by
  constructor
  · obtain ⟨m, hm, _, hnd, hkeys⟩ := CountPerTld_keys urls
    refine ⟨m, _, hm, CountUniqueUrls_eq urls, ?_⟩
    have hlen : GoMap.len m = (m.map Prod.fst).length := (List.length_map _ _).symm
    have himg : (urls.map tldOf).toFinset = (urls.map keyOf).toFinset.image tldOf := by
      ext x
      simp only [List.mem_toFinset, List.mem_map, Finset.mem_image]
      constructor
      · rintro ⟨u, hu, rfl⟩
        exact ⟨keyOf u, ⟨u, hu, rfl⟩, tldOf_keyOf u⟩
      · rintro ⟨k, ⟨u, hu, rfl⟩, rfl⟩
        exact ⟨u, hu, (tldOf_keyOf u).symm⟩
    rw [hlen, ← List.toFinset_card_of_nodup hnd, hkeys, himg]
    exact Finset.card_image_le
  · intro a b sa ha sb hb h1 h2 hkey
    rw [getSchemeAndDomain_eq] at h1 h2
    cases h1
    cases h2
    rw [topLevelDomainKey_eq, topLevelDomainKey_eq, ← tldOf_keyOf a, ← tldOf_keyOf b]
    unfold keyOf
    rw [hkey]

/-- C19: `CountUniqueUrls(urls)` is at most `len(urls)`, and at least 1 when
the list is not empty; it is 0 only for the empty list. -/
theorem C19_count_bounds (urls : List Str) :
    ∃ n : Nat, CountUniqueUrls urls = some n ∧
      n ≤ urls.length ∧
      (urls ≠ [] → 1 ≤ n) ∧
      (n = 0 ↔ urls = []) := by
  refine ⟨_, CountUniqueUrls_eq urls, ?_, ?_, ?_⟩
  · have := List.toFinset_card_le (urls.map keyOf)
    simpa using this
  · intro hne
    cases urls with
    | nil => exact absurd rfl hne
    | cons u us =>
      apply Finset.card_pos.2
      exact ⟨keyOf u, by simp⟩
  · rw [Finset.card_eq_zero, List.toFinset_eq_empty_iff, List.map_eq_nil_iff]

end UrlParser
